import Mathlib

/-!
Verification of the RIS steering/calibration engine
(`src/Utilities/RIS_Voltage_map.py` and its callers).

The Python code is embedded shallowly:

* numpy floating-point arrays become lists over a linear ordered field with a
  floor (`ℚ` for the window-fitting layer, `ℝ` for the trigonometric layer);
* `np.mod`, `np.clip`, `np.diff`, `np.argmax`, `np.sort`, `np.round` are
  modelled by `npMod`, `npClip`, `npDiff`, `npArgmax`, `List.insertionSort`
  and `npRound2` below, following numpy's documented semantics
  (`np.mod` has the sign of the divisor, `np.argmax` returns the first
  occurrence of the maximum, `np.round` rounds half to even);
* a raised `ValueError` becomes the `Except.error` branch of an `Except`.
-/

set_option linter.unusedSectionVars false

namespace RIS

section FieldDefs

variable {α : Type*} [LinearOrderedField α] [FloorRing α]

/-- numpy `np.mod x y`: floored modulo, `x - y * ⌊x / y⌋`.
For `y > 0` the result lies in `[0, y)`. -/
def npMod (x y : α) : α := x - y * ⌊x / y⌋

/-- numpy `np.clip x lo hi = min hi (max lo x)`. -/
def npClip (x lo hi : α) : α := min hi (max lo x)

/-- numpy `np.diff`: differences of consecutive elements. -/
def npDiff : List α → List α
  | [] => []
  | [_] => []
  | x :: y :: rest => (y - x) :: npDiff (y :: rest)

/-- numpy `np.argmax`: index of the first occurrence of the largest value
(`0` on the empty list, where numpy raises instead). -/
def npArgmax : List α → ℕ
  | [] => 0
  | [_] => 0
  | x :: y :: rest =>
      let j := npArgmax (y :: rest)
      if (y :: rest).getD j 0 ≤ x then 0 else j + 1

/-- `a = np.sort(np.mod(angles_deg, 360.0))` from `_rotate_into_window`. -/
def sortedAngles (angles : List α) : List α :=
  List.insertionSort (· ≤ ·) (angles.map (fun x => npMod x 360))

/-- `diffs = np.diff(np.concatenate([a, [a[0] + 360.0]]))` from
`_rotate_into_window`: circular gaps between consecutive sorted angles,
including the wrap-around gap (`a[0]` modelled by `getD 0`). -/
def circularGaps (angles : List α) : List α :=
  npDiff (sortedAngles angles ++ [(sortedAngles angles).getD 0 0 + 360])

/-- `span = 360.0 - max_gap` from `_rotate_into_window`, with
`max_gap = diffs[np.argmax(diffs)]`. -/
def spanOf (angles : List α) : α :=
  360 - (circularGaps angles).getD (npArgmax (circularGaps angles)) 0

/-- `start = a[(k + 1) % N]` from `_rotate_into_window`: the sorted angle
immediately following the widest circular gap (`np.argmax` picks the first
maximal gap).  Indexing is modelled with `List.getD`, in range on every
nonempty input, the only case the Python code survives (on an empty array
`a[0]` raises `IndexError`). -/
def startOf (angles : List α) : α :=
  (sortedAngles angles).getD
    ((npArgmax (circularGaps angles) + 1) % (sortedAngles angles).length) 0

/-- Payload of the `ValueError` raised by `_rotate_into_window`: the message
carries the computed minimal span and the configured window width. -/
structure FitError (α : Type*) where
  span : α
  window : α
  deriving DecidableEq

/-- `_rotate_into_window(angles_deg, window_width, atol)` from
`src/Utilities/RIS_Voltage_map.py`. -/
def rotate_into_window (angles : List α) (window_width atol : α) :
    Except (FitError α) (List α × α × α) :=
  let span := spanOf angles
  if span ≤ window_width + atol then
    let start := startOf angles
    let c := -start
    let rotated := angles.map (fun x => npClip (npMod (x + c) 360) 0 window_width)
    .ok (rotated, c, span)
  else
    .error ⟨span, window_width⟩

end FieldDefs

section VoltDefs

variable {α : Type*} [LinearOrderedField α] [FloorRing α]

/-- `volt_map(phase, coeffs)` from `ris_voltage_vector` (also in
`map_example.py`): polynomial evaluation
`Σ coeffs[i] * phase ^ (num - 1 - i)`, coefficients listed from the highest
degree down. -/
def volt_map (phase : α) (coeffs : List α) : α :=
  (List.range coeffs.length).foldl
    (fun ret i => ret + coeffs.getD i 0 * phase ^ (coeffs.length - 1 - i)) 0

/-- numpy rounds ties to even: `roundHalfEven x` is the integer nearest to
`x`, choosing the even one at a tie. -/
def roundHalfEven (x : α) : ℤ :=
  if x - ⌊x⌋ = 1 / 2 then (if Even ⌊x⌋ then ⌊x⌋ else ⌊x⌋ + 1) else round x

/-- `np.round(x, 2)`: round to 2 decimal places, ties to even. -/
def npRound2 (x : α) : α := (roundHalfEven (x * 100) : ℤ) / 100

/-- `.flatten()` of a 3×3 numpy array: row-major flattening. -/
def flattenRowMajor (M : Matrix (Fin 3) (Fin 3) α) : List α :=
  (List.finRange 3).flatMap (fun j => (List.finRange 3).map (fun i => M j i))

/-- The voltage-mapping tail of `ris_voltage_vector`: the element-wise
polynomial image `voltages = np.vectorize(volt_map)(phases)` and the wire
vector `voltage_vector = voltages.round(2).flatten().tolist()[::-1]`. -/
def voltage_stage (coeffs : List α) (phases : Matrix (Fin 3) (Fin 3) α) :
    List α × Matrix (Fin 3) (Fin 3) α :=
  let voltages := Matrix.of (fun j i => volt_map (phases j i) coeffs)
  ((flattenRowMajor (Matrix.of (fun j i => npRound2 (voltages j i)))).reverse,
    voltages)

end VoltDefs

/-! ### The trigonometric layer of `steering_phases`, over `ℝ` -/

/-- `np.deg2rad`. -/
noncomputable def deg2rad (x : ℝ) : ℝ := x * Real.pi / 180

/-- `np.rad2deg`. -/
noncomputable def rad2deg (x : ℝ) : ℝ := x * 180 / Real.pi

/-- `wavelength = 3e8 / frequency` with `frequency = 5e9` (5 GHz), from
`steering_phases`. -/
noncomputable def wavelength : ℝ := 3e8 / 5e9

/-- `k = 2 * np.pi / wavelength` from `steering_phases`. -/
noncomputable def kwave : ℝ := 2 * Real.pi / wavelength

/-- `dphi_x = -k * dx * np.sin(theta) * np.cos(phi)` from `steering_phases`. -/
noncomputable def dphi_x (θ_deg φ_deg dx : ℝ) : ℝ :=
  -kwave * dx * Real.sin (deg2rad θ_deg) * Real.cos (deg2rad φ_deg)

/-- `dphi_y = -k * dy * np.sin(theta) * np.sin(phi)` from `steering_phases`. -/
noncomputable def dphi_y (θ_deg φ_deg dy : ℝ) : ℝ :=
  -kwave * dy * Real.sin (deg2rad θ_deg) * Real.sin (deg2rad φ_deg)

/-- The nested loop order of `steering_phases`: the outer loop enumerates
`m ∈ [-1, 0, 1]` (x direction, columns, index `i`), the inner loop
`n ∈ [-1, 0, 1]` (y direction, rows, index `j`); the base list position of
`(m, n)` is `3 * i + j`. -/
def gridOffsets : List (ℤ × ℤ) :=
  [-1, 0, 1].flatMap (fun m => [-1, 0, 1].map (fun n => (m, n)))

/-- The raw phase list built by `steering_phases`:
`phase_deg = np.rad2deg(m * dphi_x + n * dphi_y) % 360.0` in loop order. -/
noncomputable def basePhases (θ_deg φ_deg dx dy : ℝ) : List ℝ :=
  gridOffsets.map (fun mn =>
    npMod (rad2deg ((mn.1 : ℝ) * dphi_x θ_deg φ_deg dx +
      (mn.2 : ℝ) * dphi_y θ_deg φ_deg dy)) 360)

/-- `steering_phases(theta_deg, phi_deg, dx, dy, max_phase)` from
`src/Utilities/RIS_Voltage_map.py`: build the raw phases, rotate them into
the window (tolerance defaulted to `1e-9`), and restore the 3×3 layout
`phases[j, i] = rotated[3 * i + j]`.  The diagnostics dict
`{'rotation_deg': c, 'span_deg': span}` is the trailing pair. -/
noncomputable def steering_phases (θ_deg φ_deg dx dy max_phase : ℝ) :
    Except (FitError ℝ) (Matrix (Fin 3) (Fin 3) ℝ × ℝ × ℝ) :=
  match rotate_into_window (basePhases θ_deg φ_deg dx dy) max_phase 1e-9 with
  | .error e => .error e
  | .ok (rotated, c, span) =>
      .ok (Matrix.of (fun j i : Fin 3 => rotated.getD (3 * i.1 + j.1) 0), c, span)

/-- The raw steering phase for grid offset `(m, n)` as the spec words it:
`m * dφx + n * dφy` with `dφx = -k·dx·sin(elevation)·cos(azimuth)`,
`dφy = -k·dy·sin(elevation)·sin(azimuth)`, `k = 2π/λ`, `λ = c / 5 GHz`,
converted to degrees and reduced into `[0, 360)`. -/
noncomputable def specRawPhase (m n : ℤ) (θ_deg φ_deg dx dy : ℝ) : ℝ :=
  npMod (rad2deg ((m : ℝ) * (-(2 * Real.pi / ((3e8 : ℝ) / 5e9)) * dx *
      Real.sin (deg2rad θ_deg) * Real.cos (deg2rad φ_deg)) +
    (n : ℝ) * (-(2 * Real.pi / ((3e8 : ℝ) / 5e9)) * dy *
      Real.sin (deg2rad θ_deg) * Real.sin (deg2rad φ_deg)))) 360

/-- `ris_voltage_vector(theta_deg, phi_deg, coeff_path, freq_idx, max_phase)`
from `src/Utilities/RIS_Voltage_map.py`.  Modelled from the spec: the
calibration table `Utilities/coefficients.npz` is a binary data file that is
not among the sources, so loading it and selecting the row `freq_idx` is
replaced by passing the selected coefficient row `coeffs` directly; the rest
follows the source (`dx = dy = 0.03` defaults, window `max_phase`). -/
noncomputable def ris_voltage_vector (coeffs : List ℝ) (θ_deg φ_deg max_phase : ℝ) :
    Except (FitError ℝ)
      (List ℝ × Matrix (Fin 3) (Fin 3) ℝ × Matrix (Fin 3) (Fin 3) ℝ × ℝ × ℝ) :=
  match steering_phases θ_deg φ_deg 0.03 0.03 max_phase with
  | .error e => .error e
  | .ok (phases, c, span) =>
      .ok ((voltage_stage coeffs phases).1, phases,
        (voltage_stage coeffs phases).2, c, span)

/-- The reference vector `[7.8, 5.0, 0.0, 7.8, 5.0, 0.0, 7.8, 5.0, 0.0]`
documented in `GUI_input.py` as the preprogrammed string for
`phi = 50, theta = 0`. -/
noncomputable def refVector : List ℝ := [7.8, 5, 0, 7.8, 5, 0, 7.8, 5, 0]

/-- A phase matrix with distinct values per cell (entries `10 .. 90` in
row-major order), used to exhibit the reversed row-major output ordering. -/
def distinctPhases : Matrix (Fin 3) (Fin 3) ℚ :=
  Matrix.of (fun j i => 10 + 30 * (j.1 : ℚ) + 10 * (i.1 : ℚ))

/-! ### The catalog loader `load_data_from_directory`, over `ℚ`

The loader builds 4-tuples `(el, az, label, vector)` — with `vector` a numpy
array — and calls `entries.sort()`.  Python sorts by comparing tuples with
`<`, which probes each component with `==` before ordering on the first
differing one; when two records agree on `el`, `az` and `label`, the
comparison reaches the numpy arrays, and `bool()` of an array comparison
with more than one element raises `ValueError` ("truth value of an array
... is ambiguous").  The model keeps that behaviour: comparisons run in an
`Except` monad, and the sort is a stable comparison-based insertion sort, as
Python's stable `list.sort` is on these list sizes. -/

/-- A persisted `.npz` snapshot as seen by `load_data_from_directory`: the
three fields it inspects, each possibly absent. -/
structure NpzFile where
  ris_settings : Option (List ℚ)
  target_azimuth : Option ℚ
  target_elevation : Option ℚ

/-- One qualifying catalog record: the tuple `(el, az, label, vector)`
appended to `entries`. -/
structure CatalogEntry where
  el : ℚ
  az : ℚ
  label : String
  vector : List ℚ
  deriving DecidableEq

/-- The `ValueError` numpy raises when an array of more than one element is
used as a truth value. -/
inductive SortError where
  | ambiguous
  deriving DecidableEq

/-- Python tuple comparison `e1 < e2` for the 4-tuples of
`load_data_from_directory`. -/
def entryLt (e1 e2 : CatalogEntry) : Except SortError Bool :=
  if e1.el = e2.el then
    if e1.az = e2.az then
      if e1.label = e2.label then
        match e1.vector, e2.vector with
        | [x], [y] => if x = y then .ok false else .ok (decide (x < y))
        | _, _ => .error .ambiguous
      else .ok (decide (e1.label < e2.label))
    else .ok (decide (e1.az < e2.az))
  else .ok (decide (e1.el < e2.el))

/-- Stable insertion of `x` into the already-sorted `acc` with the fallible
comparison: `x` goes before the first `y` with `x < y`, hence after any
element comparing equal (the stable position for a later arrival). -/
def insertE (x : CatalogEntry) :
    List CatalogEntry → Except SortError (List CatalogEntry)
  | [] => .ok [x]
  | y :: ys => do
      let b ← entryLt x y
      if b then pure (x :: y :: ys)
      else do
        let r ← insertE x ys
        pure (y :: r)

/-- `entries.sort()`: a stable comparison sort in the `Except` monad; a
raising comparison aborts the call, as Python propagates the exception. -/
def sortE (l : List CatalogEntry) : Except SortError (List CatalogEntry) :=
  l.foldlM (fun acc x => insertE x acc) []

/-- The strict `(el, az)` comparison that `entryLt` computes whenever the
two pairs differ. -/
def pairLtB (e1 e2 : CatalogEntry) : Bool :=
  decide (e1.el < e2.el ∨ (e1.el = e2.el ∧ e1.az < e2.az))

/-- Pure counterpart of `insertE` under distinct `(el, az)` pairs. -/
def insertB (x : CatalogEntry) : List CatalogEntry → List CatalogEntry
  | [] => [x]
  | y :: ys => if pairLtB x y then x :: y :: ys else y :: insertB x ys

/-- Pure counterpart of `sortE` under distinct `(el, az)` pairs. -/
def sortB (l : List CatalogEntry) : List CatalogEntry :=
  l.foldl (fun acc x => insertB x acc) []

/-- Ascending `(elevation, azimuth)` order, the order the catalog is
returned in. -/
def pairLe (a b : CatalogEntry) : Prop :=
  a.el < b.el ∨ (a.el = b.el ∧ a.az ≤ b.az)

/-- The qualifying records of a directory listing, in listing order: those
carrying all three fields, with settings rounded to 2 decimals and the
label `"theta={el}, phi={az}"`. -/
def catalogEntriesOf (files : List NpzFile) : List CatalogEntry :=
  files.filterMap (fun f =>
    match f.ris_settings, f.target_azimuth, f.target_elevation with
    | some rs, some az, some el =>
        some ⟨el, az, s!"theta={el}, phi={az}", rs.map npRound2⟩
    | _, _, _ => none)

/-- `load_data_from_directory(folder_path)` from
`src/Utilities/RIS_Voltage_map.py`: keep qualifying records, sort by the
tuple order, and return the labels plus the label-keyed mapping (the Python
dict comprehension, modelled as the association list built in iteration
order; a duplicated label keeps its last binding on lookup). -/
def load_data_from_directory (files : List NpzFile) :
    Except SortError (List String × List (String × List ℚ × ℚ × ℚ)) := do
  let entries := catalogEntriesOf files
  let sorted ← sortE entries
  pure (sorted.map (·.label),
    sorted.map (fun e => (e.label, e.vector, e.az, e.el)))

section FieldLemmas

variable {α : Type*} [LinearOrderedField α] [FloorRing α]

/-! ### Basic facts about the numpy primitives -/

theorem npMod_nonneg (x : α) {y : α} (hy : 0 < y) : 0 ≤ npMod x y := by
  have h := Int.floor_le (x / y)
  have : y * ⌊x / y⌋ ≤ y * (x / y) := by
    exact mul_le_mul_of_nonneg_left h (le_of_lt hy)
  rw [mul_div_cancel₀ x (ne_of_gt hy)] at this
  simpa [npMod] using this

theorem npMod_lt (x : α) {y : α} (hy : 0 < y) : npMod x y < y := by
  have h := Int.lt_floor_add_one (x / y)
  have h2 : y * (x / y) < y * (⌊x / y⌋ + 1) := mul_lt_mul_of_pos_left h hy
  rw [mul_div_cancel₀ x (ne_of_gt hy)] at h2
  have : x - y * ⌊x / y⌋ < y := by ring_nf; ring_nf at h2; linarith
  simpa [npMod] using this

theorem npMod_eq_self {x y : α} (hy : 0 < y) (h0 : 0 ≤ x) (h1 : x < y) :
    npMod x y = x := by
  have h2 : x / y < 1 := (div_lt_one hy).mpr h1
  have h3 : (0 : α) ≤ x / y := div_nonneg h0 hy.le
  have hfl : ⌊x / y⌋ = 0 := by
    rw [Int.floor_eq_iff] <;> push_cast <;> constructor <;> linarith
  simp [npMod, hfl]

theorem npMod_neg_eq_add {x y : α} (hy : 0 < y) (h0 : -y ≤ x) (h1 : x < 0) :
    npMod x y = x + y := by
  have h2 : x / y < 0 := div_neg_of_neg_of_pos h1 hy
  have h3 : (-1 : α) ≤ x / y := by
    rw [neg_le, ← neg_div]
    exact (div_le_one hy).mpr (by linarith)
  have hfl : ⌊x / y⌋ = -1 := by
    rw [Int.floor_eq_iff] <;> push_cast <;> constructor <;> linarith
  rw [npMod, hfl]
  push_cast
  ring

theorem npMod_zero_left {y : α} : npMod 0 y = 0 := by
  simp [npMod]

/-- `np.mod` is invariant under shifting the argument by an integer multiple
of the modulus. -/
theorem npMod_sub_int_mul (x : α) {y : α} (hy : y ≠ 0) (n : ℤ) :
    npMod (x - y * n) y = npMod x y := by
  have hdiv : (x - y * n) / y = x / y - n := by
    field_simp
  rw [npMod, npMod, hdiv, Int.floor_sub_int]
  push_cast
  ring

theorem npMod_add_shift (x c : α) : npMod (x + c) 360 = npMod (npMod x 360 + c) 360 := by
  have h360 : (360 : α) ≠ 0 := by norm_num
  have : npMod x 360 + c = (x + c) - 360 * ⌊x / 360⌋ := by
    rw [npMod]; ring
  rw [this, npMod_sub_int_mul (x + c) h360 ⌊x / 360⌋]

theorem npDiff_length (l : List α) : (npDiff l).length = l.length - 1 := by
  induction l with
  | nil => rfl
  | cons x xs ih =>
      cases xs with
      | nil => rfl
      | cons y rest => simp [npDiff] at ih ⊢; omega

theorem npDiff_getD (l : List α) (i : ℕ) (h : i + 1 < l.length) :
    (npDiff l).getD i 0 = l.getD (i + 1) 0 - l.getD i 0 := by
  induction l generalizing i with
  | nil => simp at h
  | cons x xs ih =>
      cases xs with
      | nil => simp at h
      | cons y rest =>
          cases i with
          | zero => simp [npDiff]
          | succ n =>
              have : n + 1 < (y :: rest).length := by
                simp at h ⊢; omega
              simpa [npDiff] using ih n this

theorem npArgmax_cons_cons (x y : α) (rest : List α) :
    npArgmax (x :: y :: rest) =
      if (y :: rest).getD (npArgmax (y :: rest)) 0 ≤ x then 0
      else npArgmax (y :: rest) + 1 := rfl

theorem npArgmax_lt_length (l : List α) (h : l ≠ []) : npArgmax l < l.length := by
  induction l with
  | nil => exact absurd rfl h
  | cons x xs ih =>
      cases xs with
      | nil => simp [npArgmax]
      | cons y rest =>
          have hlt := ih (by simp)
          rw [npArgmax_cons_cons]
          by_cases hc : (y :: rest).getD (npArgmax (y :: rest)) 0 ≤ x
          · rw [if_pos hc]
            simp
          · rw [if_neg hc, List.length_cons]
            omega

theorem npArgmax_le (l : List α) (x : α) (hx : x ∈ l) :
    x ≤ l.getD (npArgmax l) 0 := by
  induction l with
  | nil => simp at hx
  | cons a xs ih =>
      cases xs with
      | nil =>
          have h1 : x = a := List.mem_singleton.1 hx
          subst h1
          exact le_refl x
      | cons y rest =>
          rw [npArgmax_cons_cons]
          by_cases hc : (y :: rest).getD (npArgmax (y :: rest)) 0 ≤ a
          · rw [if_pos hc, List.getD_cons_zero]
            rcases List.mem_cons.1 hx with h1 | h1
            · exact h1.le
            · exact le_trans (ih h1) hc
          · rw [if_neg hc, List.getD_cons_succ]
            push_neg at hc
            rcases List.mem_cons.1 hx with h1 | h1
            · subst h1
              exact hc.le
            · exact ih h1

theorem npArgmax_first (l : List α) (i : ℕ) (hi : i < npArgmax l) :
    l.getD i 0 ≠ l.getD (npArgmax l) 0 := by
  induction l generalizing i with
  | nil => simp [npArgmax] at hi
  | cons a xs ih =>
      cases xs with
      | nil => simp [npArgmax] at hi
      | cons y rest =>
          rw [npArgmax_cons_cons] at hi ⊢
          by_cases hc : (y :: rest).getD (npArgmax (y :: rest)) 0 ≤ a
          · rw [if_pos hc] at hi
            omega
          · rw [if_neg hc] at hi ⊢
            push_neg at hc
            rw [List.getD_cons_succ]
            cases i with
            | zero =>
                rw [List.getD_cons_zero]
                exact ne_of_lt hc
            | succ n =>
                rw [List.getD_cons_succ]
                exact ih n (by omega)

/-! ### List index helpers -/

theorem getD_mem {l : List α} {i : ℕ} (h : i < l.length) : l.getD i 0 ∈ l := by
  rw [List.getD_eq_getElem l 0 h]
  exact List.getElem_mem h

theorem mem_iff_getD {l : List α} {x : α} :
    x ∈ l ↔ ∃ i, i < l.length ∧ l.getD i 0 = x := by
  constructor
  · intro h
    rcases List.mem_iff_getElem.1 h with ⟨i, hi, rfl⟩
    exact ⟨i, hi, List.getD_eq_getElem l 0 hi⟩
  · rintro ⟨i, hi, rfl⟩
    exact getD_mem hi

theorem sorted_getD_mono {l : List α} (h : l.Sorted (· ≤ ·)) {i j : ℕ}
    (hij : i ≤ j) (hj : j < l.length) : l.getD i 0 ≤ l.getD j 0 := by
  have hi : i < l.length := lt_of_le_of_lt hij hj
  rw [List.getD_eq_getElem l 0 hi, List.getD_eq_getElem l 0 hj]
  rcases lt_or_eq_of_le hij with h1 | h1
  · exact List.Sorted.rel_get_of_lt h (by simpa using h1)
  · subst h1
    exact le_refl _

/-! ### Facts about the sorted angles and the circular gaps -/

theorem sortedAngles_sorted (angles : List α) :
    (sortedAngles angles).Sorted (· ≤ ·) :=
  List.sorted_insertionSort _ _

theorem sortedAngles_perm (angles : List α) :
    List.Perm (sortedAngles angles) (angles.map (fun x => npMod x 360)) :=
  List.perm_insertionSort _ _

theorem sortedAngles_length (angles : List α) :
    (sortedAngles angles).length = angles.length := by
  rw [(sortedAngles_perm angles).length_eq, List.length_map]

theorem sortedAngles_mem_range {angles : List α} {v : α}
    (hv : v ∈ sortedAngles angles) : 0 ≤ v ∧ v < 360 := by
  have hv2 : v ∈ angles.map (fun x => npMod x 360) :=
    (sortedAngles_perm angles).mem_iff.1 hv
  rcases List.mem_map.1 hv2 with ⟨x, _, rfl⟩
  exact ⟨npMod_nonneg x (by norm_num), npMod_lt x (by norm_num)⟩

theorem circularGaps_length (angles : List α) :
    (circularGaps angles).length = (sortedAngles angles).length := by
  rw [circularGaps, npDiff_length, List.length_append]
  simp

theorem circularGaps_getD_mid (angles : List α) (i : ℕ)
    (h : i + 1 < (sortedAngles angles).length) :
    (circularGaps angles).getD i 0 =
      (sortedAngles angles).getD (i + 1) 0 - (sortedAngles angles).getD i 0 := by
  rw [circularGaps, npDiff_getD _ _ (by simp; omega),
    List.getD_append _ _ _ _ h, List.getD_append _ _ _ _ (by omega)]

theorem circularGaps_getD_last (angles : List α)
    (h : 0 < (sortedAngles angles).length) :
    (circularGaps angles).getD ((sortedAngles angles).length - 1) 0 =
      (sortedAngles angles).getD 0 0 + 360 -
        (sortedAngles angles).getD ((sortedAngles angles).length - 1) 0 := by
  set a := sortedAngles angles with ha
  have hidx : (a.length - 1) + 1 = a.length := by omega
  rw [circularGaps, npDiff_getD _ _ (by simp; omega), ← ha, hidx,
    List.getD_append_right _ _ _ _ (by omega),
    List.getD_append _ _ _ _ (by omega)]
  simp

/-- The widest circular gap is one of the gaps, hence bounded; it is strictly
positive because the wrap-around gap always is. -/
theorem maxGap_pos (angles : List α) (h : angles ≠ []) :
    0 < (circularGaps angles).getD (npArgmax (circularGaps angles)) 0 := by
  have hN : 0 < (sortedAngles angles).length := by
    rw [sortedAngles_length]
    exact List.length_pos.2 h
  have hlast := circularGaps_getD_last angles hN
  have hmemlast : (circularGaps angles).getD ((sortedAngles angles).length - 1) 0 ∈
      circularGaps angles := by
    apply getD_mem
    rw [circularGaps_length]
    omega
  have hle := npArgmax_le (circularGaps angles) _ hmemlast
  have h0 : 0 ≤ (sortedAngles angles).getD 0 0 :=
    (sortedAngles_mem_range (getD_mem hN)).1
  have hlt : (sortedAngles angles).getD ((sortedAngles angles).length - 1) 0 < 360 :=
    (sortedAngles_mem_range (getD_mem (by omega))).2
  rw [hlast] at hle
  linarith

theorem gap_le_360 (angles : List α) (i : ℕ)
    (hi : i < (circularGaps angles).length) :
    (circularGaps angles).getD i 0 ≤ 360 := by
  have hN : i < (sortedAngles angles).length := by
    rwa [circularGaps_length] at hi
  rcases lt_or_eq_of_le (Nat.succ_le_of_lt hN) with h1 | h1
  · rw [circularGaps_getD_mid angles i h1]
    have hu := (sortedAngles_mem_range (getD_mem (show i + 1 <
      (sortedAngles angles).length by omega))).2
    have hl := (sortedAngles_mem_range (getD_mem hN)).1
    linarith
  · have hilast : i = (sortedAngles angles).length - 1 := by omega
    subst hilast
    rw [circularGaps_getD_last angles (by omega)]
    have h0 : (sortedAngles angles).getD 0 0 ≤
        (sortedAngles angles).getD ((sortedAngles angles).length - 1) 0 :=
      sorted_getD_mono (sortedAngles_sorted angles) (Nat.zero_le _) (by omega)
    linarith

theorem spanOf_nonneg (angles : List α) (h : angles ≠ []) : 0 ≤ spanOf angles := by
  have hN : 0 < (sortedAngles angles).length := by
    rw [sortedAngles_length]
    exact List.length_pos.2 h
  have hk : npArgmax (circularGaps angles) < (circularGaps angles).length := by
    apply npArgmax_lt_length
    intro hnil
    rw [← List.length_eq_zero] at hnil
    rw [circularGaps_length] at hnil
    omega
  have := gap_le_360 angles _ hk
  rw [spanOf]
  linarith

theorem spanOf_lt_360 (angles : List α) (h : angles ≠ []) : spanOf angles < 360 := by
  have := maxGap_pos angles h
  rw [spanOf]
  linarith

theorem startOf_mem (angles : List α) (h : angles ≠ []) :
    startOf angles ∈ sortedAngles angles := by
  have hN : 0 < (sortedAngles angles).length := by
    rw [sortedAngles_length]
    exact List.length_pos.2 h
  exact getD_mem (Nat.mod_lt _ hN)

/-! ### The geometric core: rotating by `-start` maps every sorted angle into
`[0, span]`, attaining both endpoints.  This is the classic largest-empty-arc
argument behind `_rotate_into_window`. -/

theorem core_le (angles : List α) (h : angles ≠ []) (v : α)
    (hv : v ∈ sortedAngles angles) :
    npMod (v - startOf angles) 360 ≤ spanOf angles := by
  have h360 : (0 : α) < 360 := by norm_num
  set a := sortedAngles angles with ha
  have hN : 0 < a.length := by
    rw [ha, sortedAngles_length]
    exact List.length_pos.2 h
  set k := npArgmax (circularGaps angles) with hkdef
  clear_value k
  have hk : k < a.length := by
    rw [hkdef, ha]
    rw [← circularGaps_length]
    apply npArgmax_lt_length
    intro hnil
    have := circularGaps_length angles
    rw [hnil] at this
    simp at this
    rw [← ha] at this
    omega
  set g := (circularGaps angles).getD k 0 with hgdef
  clear_value g
  have hspan : spanOf angles = 360 - g := by
    rw [hgdef, hkdef, spanOf]
  have hgpos : 0 < g := by
    rw [hgdef, hkdef]
    exact maxGap_pos angles h
  have hsorted : a.Sorted (· ≤ ·) := sortedAngles_sorted angles
  have hstart : startOf angles = a.getD ((k + 1) % a.length) 0 := by
    rw [startOf, ← ha, ← hkdef]
  rcases mem_iff_getD.1 hv with ⟨i, hi, rfl⟩
  have hvlo : 0 ≤ a.getD i 0 := (sortedAngles_mem_range (getD_mem hi)).1
  have hvhi : a.getD i 0 < 360 := (sortedAngles_mem_range (getD_mem hi)).2
  rcases Nat.lt_or_ge (k + 1) a.length with hcase | hge
  · -- the widest gap is an interior gap: start = a[k+1]
    have hstart2 : startOf angles = a.getD (k + 1) 0 := by
      rw [hstart, Nat.mod_eq_of_lt hcase]
    have hgmid : g = a.getD (k + 1) 0 - a.getD k 0 := by
      rw [hgdef, circularGaps_getD_mid angles k (by rwa [← ha])]
    have hklo : 0 ≤ a.getD k 0 := (sortedAngles_mem_range (getD_mem hk)).1
    have hstartlo : 0 ≤ a.getD (k + 1) 0 := (sortedAngles_mem_range (getD_mem hcase)).1
    have hstarthi : a.getD (k + 1) 0 < 360 := (sortedAngles_mem_range (getD_mem hcase)).2
    by_cases hik : k + 1 ≤ i
    · have hge2 : a.getD (k + 1) 0 ≤ a.getD i 0 := sorted_getD_mono hsorted hik hi
      rw [hstart2, npMod_eq_self h360 (by linarith) (by linarith), hspan, hgmid]
      linarith
    · push_neg at hik
      have hle : a.getD i 0 ≤ a.getD k 0 := sorted_getD_mono hsorted (by omega) hk
      rw [hstart2, npMod_neg_eq_add h360 (by linarith) (by rw [hgmid] at hgpos; linarith),
        hspan, hgmid]
      linarith
  · -- the widest gap is the wrap-around gap: start = a[0]
    have hceq : k + 1 = a.length := by omega
    have hstart2 : startOf angles = a.getD 0 0 := by
      rw [hstart, hceq, Nat.mod_self]
    have hglast : g = a.getD 0 0 + 360 - a.getD (a.length - 1) 0 := by
      rw [hgdef]
      have hklast : k = a.length - 1 := by omega
      rw [hklast, circularGaps_getD_last angles (by rwa [← ha])]
    have h0lo : 0 ≤ a.getD 0 0 := (sortedAngles_mem_range (getD_mem hN)).1
    have hge2 : a.getD 0 0 ≤ a.getD i 0 := sorted_getD_mono hsorted (Nat.zero_le _) hi
    have hlastge : a.getD i 0 ≤ a.getD (a.length - 1) 0 :=
      sorted_getD_mono hsorted (by omega) (by omega)
    rw [hstart2, npMod_eq_self h360 (by linarith) (by linarith), hspan, hglast]
    linarith

theorem core_attain (angles : List α) (h : angles ≠ []) :
    npMod ((sortedAngles angles).getD (npArgmax (circularGaps angles)) 0 -
      startOf angles) 360 = spanOf angles := by
  have h360 : (0 : α) < 360 := by norm_num
  set a := sortedAngles angles with ha
  have hN : 0 < a.length := by
    rw [ha, sortedAngles_length]
    exact List.length_pos.2 h
  set k := npArgmax (circularGaps angles) with hkdef
  clear_value k
  have hk : k < a.length := by
    rw [hkdef, ha]
    rw [← circularGaps_length]
    apply npArgmax_lt_length
    intro hnil
    have := circularGaps_length angles
    rw [hnil] at this
    simp at this
    rw [← ha] at this
    omega
  set g := (circularGaps angles).getD k 0 with hgdef
  clear_value g
  have hspan : spanOf angles = 360 - g := by
    rw [hgdef, hkdef, spanOf]
  have hgpos : 0 < g := by
    rw [hgdef, hkdef]
    exact maxGap_pos angles h
  have hg360 : g ≤ 360 := by
    rw [hgdef]
    apply gap_le_360
    rwa [circularGaps_length]
  have hsorted : a.Sorted (· ≤ ·) := sortedAngles_sorted angles
  have hstart : startOf angles = a.getD ((k + 1) % a.length) 0 := by
    rw [startOf, ← ha, ← hkdef]
  rcases Nat.lt_or_ge (k + 1) a.length with hcase | hge
  · have hstart2 : startOf angles = a.getD (k + 1) 0 := by
      rw [hstart, Nat.mod_eq_of_lt hcase]
    have hgmid : g = a.getD (k + 1) 0 - a.getD k 0 := by
      rw [hgdef, circularGaps_getD_mid angles k (by rwa [← ha])]
    have hdiff : a.getD k 0 - a.getD (k + 1) 0 = -g := by rw [hgmid]; ring
    rw [hstart2, hdiff, npMod_neg_eq_add h360 (by linarith) (by linarith), hspan]
    ring
  · have hceq : k + 1 = a.length := by omega
    have hklast : k = a.length - 1 := by omega
    have hstart2 : startOf angles = a.getD 0 0 := by
      rw [hstart, hceq, Nat.mod_self]
    have hglast : g = a.getD 0 0 + 360 - a.getD (a.length - 1) 0 := by
      rw [hgdef, hklast, circularGaps_getD_last angles (by rwa [← ha])]
    have h0lo : 0 ≤ a.getD 0 0 := (sortedAngles_mem_range (getD_mem hN)).1
    have hlt : a.getD (a.length - 1) 0 < 360 :=
      (sortedAngles_mem_range (getD_mem (by rw [← ha]; omega))).2
    have hge2 : a.getD 0 0 ≤ a.getD (a.length - 1) 0 :=
      sorted_getD_mono hsorted (Nat.zero_le _) (by omega)
    rw [hstart2, hklast, npMod_eq_self h360 (by linarith) (by linarith), hspan, hglast]
    ring

/-! ### Unfolding `rotate_into_window` -/

theorem rotate_ok_elim (angles : List α) (W atol : α) (r : List α) (c s : α)
    (hok : rotate_into_window angles W atol = .ok (r, c, s)) :
    spanOf angles ≤ W + atol ∧
    r = angles.map (fun x => npClip (npMod (x + -startOf angles) 360) 0 W) ∧
    c = -startOf angles ∧ s = spanOf angles := by
  simp only [rotate_into_window] at hok
  by_cases hcond : spanOf angles ≤ W + atol
  · rw [if_pos hcond, Except.ok.injEq, Prod.mk.injEq, Prod.mk.injEq] at hok
    exact ⟨hcond, hok.1.symm, hok.2.1.symm, hok.2.2.symm⟩
  · rw [if_neg hcond] at hok
    exact absurd hok (by simp)

theorem rotate_error_elim (angles : List α) (W atol : α) (e : FitError α)
    (herr : rotate_into_window angles W atol = .error e) :
    ¬ spanOf angles ≤ W + atol ∧ e = ⟨spanOf angles, W⟩ := by
  simp only [rotate_into_window] at herr
  by_cases hcond : spanOf angles ≤ W + atol
  · rw [if_pos hcond] at herr
    exact absurd herr (by simp)
  · rw [if_neg hcond, Except.error.injEq] at herr
    exact ⟨hcond, herr.symm⟩

theorem rotate_ok_intro (angles : List α) (W atol : α)
    (hcond : spanOf angles ≤ W + atol) :
    rotate_into_window angles W atol = .ok
      (angles.map (fun x => npClip (npMod (x + -startOf angles) 360) 0 W),
        -startOf angles, spanOf angles) := by
  simp only [rotate_into_window]
  rw [if_pos hcond]

theorem rotate_error_intro (angles : List α) (W atol : α)
    (hcond : ¬ spanOf angles ≤ W + atol) :
    rotate_into_window angles W atol = .error ⟨spanOf angles, W⟩ := by
  simp only [rotate_into_window]
  rw [if_neg hcond]

/-- On success, every rotated value lies in `[0, W]`, the minimum is exactly
`0`, the maximum is exactly `min W span`, and the rotation constant is the
negated start angle, which lies in `[0, 360)`. -/
theorem rotated_facts (angles : List α) (W atol : α) (hne : angles ≠ [])
    (hW : 0 ≤ W) (r : List α) (c s : α)
    (hok : rotate_into_window angles W atol = .ok (r, c, s)) :
    (∀ x ∈ r, 0 ≤ x ∧ x ≤ W) ∧ r.maximum = some (min W s) ∧
    r.minimum = some 0 ∧ 0 ≤ s ∧ s ≤ W + atol ∧ -360 < c ∧ c ≤ 0 := by
  obtain ⟨hcond, hr, hc, hs⟩ := rotate_ok_elim angles W atol r c s hok
  have hstart_mem : startOf angles ∈ sortedAngles angles := startOf_mem angles hne
  have hstart_lo : 0 ≤ startOf angles := (sortedAngles_mem_range hstart_mem).1
  have hstart_hi : startOf angles < 360 := (sortedAngles_mem_range hstart_mem).2
  have hspan0 : 0 ≤ spanOf angles := spanOf_nonneg angles hne
  -- each rotated value is `min W (npMod (npMod x 360 - start) 360)`
  have hval : ∀ x ∈ angles,
      npClip (npMod (x + -startOf angles) 360) 0 W =
        min W (npMod (npMod x 360 - startOf angles) 360) ∧
      npMod (npMod x 360 - startOf angles) 360 ≤ spanOf angles ∧
      0 ≤ npMod (npMod x 360 - startOf angles) 360 := by
    intro x hx
    have hshift : npMod (x + -startOf angles) 360 =
        npMod (npMod x 360 - startOf angles) 360 := by
      rw [npMod_add_shift x (-startOf angles), sub_eq_add_neg]
    have hv : npMod x 360 ∈ sortedAngles angles :=
      (sortedAngles_perm angles).mem_iff.2
        (List.mem_map_of_mem (fun t => npMod t 360) hx)
    have hp0 : 0 ≤ npMod (npMod x 360 - startOf angles) 360 :=
      npMod_nonneg _ (by norm_num)
    refine ⟨?_, core_le angles hne _ hv, hp0⟩
    rw [npClip, hshift, max_eq_right hp0]
  constructor
  · -- range bounds
    intro y hy
    rw [hr] at hy
    rcases List.mem_map.1 hy with ⟨x, hx, rfl⟩
    obtain ⟨hvx, _, hp0⟩ := hval x hx
    rw [hvx]
    exact ⟨le_min hW hp0, min_le_left _ _⟩
  refine ⟨?_, ?_, by rw [hs]; exact hspan0, by rw [hs]; exact hcond,
    by rw [hc]; linarith, by rw [hc]; linarith⟩
  · -- maximum is exactly `min W span`
    apply List.maximum_eq_coe_iff.2
    constructor
    · -- attained at the angle just before the widest gap
      have hkN : npArgmax (circularGaps angles) < (sortedAngles angles).length := by
        rw [← circularGaps_length]
        apply npArgmax_lt_length
        intro hnil
        have hl := circularGaps_length angles
        rw [hnil] at hl
        simp at hl
        rw [sortedAngles_length] at hl
        exact hne (List.length_eq_zero.1 hl.symm)
      have hv0 : (sortedAngles angles).getD (npArgmax (circularGaps angles)) 0 ∈
          sortedAngles angles := getD_mem hkN
      have hv0m : (sortedAngles angles).getD (npArgmax (circularGaps angles)) 0 ∈
          angles.map (fun t => npMod t 360) :=
        (sortedAngles_perm angles).mem_iff.1 hv0
      rcases List.mem_map.1 hv0m with ⟨x, hx, hxv⟩
      have := core_attain angles hne
      rw [← hxv] at this
      obtain ⟨hvx, _, _⟩ := hval x hx
      rw [hr, hs]
      apply List.mem_map.2
      refine ⟨x, hx, ?_⟩
      rw [hvx, this]
    · -- every value is at most `min W span`
      intro y hy
      rw [hr] at hy
      rcases List.mem_map.1 hy with ⟨x, hx, rfl⟩
      obtain ⟨hvx, hple, _⟩ := hval x hx
      rw [hvx, hs]
      exact min_le_min le_rfl hple
  · -- minimum is exactly 0, attained at the start angle itself
    apply List.minimum_eq_coe_iff.2
    constructor
    · have hsm : startOf angles ∈ angles.map (fun t => npMod t 360) :=
        (sortedAngles_perm angles).mem_iff.1 hstart_mem
      rcases List.mem_map.1 hsm with ⟨x, hx, hxv⟩
      obtain ⟨hvx, _, _⟩ := hval x hx
      rw [hr]
      apply List.mem_map.2
      refine ⟨x, hx, ?_⟩
      rw [hvx, hxv, sub_self, npMod_zero_left, min_eq_right hW]
    · intro y hy
      rw [hr] at hy
      rcases List.mem_map.1 hy with ⟨x, hx, rfl⟩
      obtain ⟨hvx, _, hp0⟩ := hval x hx
      rw [hvx]
      exact le_min hW hp0

end FieldLemmas

/-! ### Claims C1, C2, C3 and C10 about `_rotate_into_window`, settled over `ℚ` -/

/-- Concrete evaluation of `_rotate_into_window` on angles `[10, 200, 350]`
with window 290: sorted gaps `[190, 150, 20]`, widest gap 190, span 170,
start angle 200, rotated angles `[170, 0, 150]`. -/
theorem rotate_eval_10_200_350 :
    rotate_into_window [(10 : ℚ), 200, 350] 290 1e-9 =
      .ok ([170, 0, 150], -200, 170) := by
  have h1 : sortedAngles [(10 : ℚ), 200, 350] = [10, 200, 350] := by
    norm_num [sortedAngles, List.insertionSort, List.orderedInsert, npMod]
  have h2 : circularGaps [(10 : ℚ), 200, 350] = [190, 150, 20] := by
    norm_num [circularGaps, h1, npDiff]
  have h3 : npArgmax [(190 : ℚ), 150, 20] = 0 := by norm_num [npArgmax]
  have h4 : spanOf [(10 : ℚ), 200, 350] = 170 := by
    norm_num [spanOf, h2, h3]
  have h5 : startOf [(10 : ℚ), 200, 350] = 200 := by
    norm_num [startOf, h1, h2, h3]
  rw [rotate_ok_intro _ _ _ (by rw [h4]; norm_num), h4, h5]
  norm_num [npMod, npClip, min_def, max_def]

/-- C1: for every nonempty list of input angles, `_rotate_into_window`
computes `span` as `360` minus the largest circular gap between consecutive
sorted angles reduced mod 360 (including the wrap-around gap), breaking ties
among equal gaps by taking the first maximal gap in sorted order, and on
success returns the rotation constant `c = -start` where `start` is the angle
immediately following that widest gap. -/
theorem rotate_into_window_span_and_rotation (angles : List ℚ) (W atol : ℚ)
    (hne : angles ≠ []) (r : List ℚ) (c s : ℚ)
    (hok : rotate_into_window angles W atol = .ok (r, c, s)) :
    ∃ M k,
      M ∈ circularGaps angles ∧ (∀ g ∈ circularGaps angles, g ≤ M) ∧
      s = 360 - M ∧
      k < (circularGaps angles).length ∧
      (circularGaps angles).getD k 0 = M ∧
      (∀ j, j < k → (circularGaps angles).getD j 0 ≠ M) ∧
      c = -((sortedAngles angles).getD ((k + 1) % (sortedAngles angles).length) 0) := by
  obtain ⟨_, _, hc, hs⟩ := rotate_ok_elim angles W atol r c s hok
  have hgne : circularGaps angles ≠ [] := by
    intro hnil
    have hl := circularGaps_length angles
    rw [hnil] at hl
    simp at hl
    rw [sortedAngles_length] at hl
    exact hne (List.length_eq_zero.1 hl.symm)
  refine ⟨(circularGaps angles).getD (npArgmax (circularGaps angles)) 0,
    npArgmax (circularGaps angles),
    getD_mem (npArgmax_lt_length _ hgne),
    fun g hg => npArgmax_le _ g hg,
    by rw [hs]; rfl,
    npArgmax_lt_length _ hgne,
    rfl,
    fun j hj => npArgmax_first _ j hj,
    by rw [hc]; rfl⟩

/-- C1 witness: the concrete run on angles `[10, 200, 350]` with window 290:
sorted gaps are `[190, 150, 20]`, the widest gap `190` is first, span is
`170`, the start angle is `200` and the rotation is `-200`. -/
theorem rotate_into_window_span_and_rotation_witness :
    (([(10 : ℚ), 200, 350] : List ℚ) ≠ [] ∧
      rotate_into_window [(10 : ℚ), 200, 350] 290 1e-9 =
        .ok ([170, 0, 150], -200, 170)) ∧
    ∃ M k,
      M ∈ circularGaps [(10 : ℚ), 200, 350] ∧
      (∀ g ∈ circularGaps [(10 : ℚ), 200, 350], g ≤ M) ∧
      (170 : ℚ) = 360 - M ∧
      k < (circularGaps [(10 : ℚ), 200, 350]).length ∧
      (circularGaps [(10 : ℚ), 200, 350]).getD k 0 = M ∧
      (∀ j, j < k → (circularGaps [(10 : ℚ), 200, 350]).getD j 0 ≠ M) ∧
      (-200 : ℚ) = -((sortedAngles [(10 : ℚ), 200, 350]).getD
        ((k + 1) % (sortedAngles [(10 : ℚ), 200, 350]).length) 0) :=
  ⟨⟨by simp, rotate_eval_10_200_350⟩,
    rotate_into_window_span_and_rotation [10, 200, 350] 290 1e-9 (by simp)
      [170, 0, 150] (-200) 170 rotate_eval_10_200_350⟩

/-- C2: with the default tolerance `1e-9`, `_rotate_into_window` raises the
infeasibility error exactly when the minimal span exceeds
`max_phase + 1e-9`; a span exactly equal to `max_phase` is feasible; the
raised error carries the computed span and the configured window width. -/
theorem rotate_into_window_error_iff (angles : List ℚ) (W : ℚ) (hne : angles ≠ []) :
    ((∃ e, rotate_into_window angles W 1e-9 = .error e) ↔
      W + 1e-9 < spanOf angles) ∧
    (∀ e, rotate_into_window angles W 1e-9 = .error e →
      e.span = spanOf angles ∧ e.window = W) ∧
    (spanOf angles = W →
      ∃ r c, rotate_into_window angles W 1e-9 = .ok (r, c, spanOf angles)) := by
  refine ⟨⟨?_, ?_⟩, ?_, ?_⟩
  · rintro ⟨e, he⟩
    exact not_le.1 (rotate_error_elim angles W 1e-9 e he).1
  · intro hlt
    exact ⟨_, rotate_error_intro angles W 1e-9 (not_le.2 hlt)⟩
  · intro e he
    have h2 := (rotate_error_elim angles W 1e-9 e he).2
    rw [h2]
    exact ⟨rfl, rfl⟩
  · intro hEq
    refine ⟨_, _, rotate_ok_intro angles W 1e-9 ?_⟩
    rw [hEq]
    norm_num

/-- C2 witness: six angles spaced 60° apart need a span of 300°, which
exceeds the 290° window plus tolerance, so the error is raised and carries
span 300 and window 290; the feasibility clause is vacuous here. -/
theorem rotate_into_window_error_iff_witness :
    (([(0 : ℚ), 60, 120, 180, 240, 300] : List ℚ) ≠ []) ∧
    (((∃ e, rotate_into_window [(0 : ℚ), 60, 120, 180, 240, 300] 290 1e-9 = .error e) ↔
      290 + 1e-9 < spanOf [(0 : ℚ), 60, 120, 180, 240, 300]) ∧
    (∀ e, rotate_into_window [(0 : ℚ), 60, 120, 180, 240, 300] 290 1e-9 = .error e →
      e.span = spanOf [(0 : ℚ), 60, 120, 180, 240, 300] ∧ e.window = 290) ∧
    (spanOf [(0 : ℚ), 60, 120, 180, 240, 300] = 290 →
      ∃ r c, rotate_into_window [(0 : ℚ), 60, 120, 180, 240, 300] 290 1e-9 =
        .ok (r, c, spanOf [(0 : ℚ), 60, 120, 180, 240, 300]))) :=
  ⟨by simp, rotate_into_window_error_iff [0, 60, 120, 180, 240, 300] 290 (by simp)⟩

/-- C3: on every feasible input (success of `_rotate_into_window` with a
nonnegative window and tolerance), every returned rotated phase lies in
`[0, max_phase]`, and the maximum minus the minimum of the rotated phases
differs from the reported span by at most the tolerance. -/
theorem rotate_into_window_range_and_span (angles : List ℚ) (W atol : ℚ)
    (hW : 0 ≤ W) (hatol : 0 ≤ atol) (hne : angles ≠ [])
    (r : List ℚ) (c s : ℚ)
    (hok : rotate_into_window angles W atol = .ok (r, c, s)) :
    (∀ x ∈ r, 0 ≤ x ∧ x ≤ W) ∧
    ∃ M m, r.maximum = some M ∧ r.minimum = some m ∧ |M - m - s| ≤ atol := by
  obtain ⟨hall, hmax, hmin, _, hsW, _, _⟩ :=
    rotated_facts angles W atol hne hW r c s hok
  refine ⟨hall, min W s, 0, hmax, hmin, ?_⟩
  rcases le_total s W with h1 | h1
  · rw [min_eq_right h1]
    simpa using hatol
  · rw [min_eq_left h1, abs_of_nonpos (by linarith)]
    linarith

/-- C3 witness: the run on `[10, 200, 350]` with window 290 and tolerance
`1e-9` returns `[170, 0, 150]`, all within `[0, 290]`, with
`max - min = 170 - 0` equal to the reported span `170`. -/
theorem rotate_into_window_range_and_span_witness :
    ((0 : ℚ) ≤ 290 ∧ (0 : ℚ) ≤ 1e-9 ∧ ([(10 : ℚ), 200, 350] : List ℚ) ≠ [] ∧
      rotate_into_window [(10 : ℚ), 200, 350] 290 1e-9 =
        .ok ([170, 0, 150], -200, 170)) ∧
    ((∀ x ∈ ([(170 : ℚ), 0, 150] : List ℚ), 0 ≤ x ∧ x ≤ 290) ∧
    ∃ M m, ([(170 : ℚ), 0, 150] : List ℚ).maximum = some M ∧
      ([(170 : ℚ), 0, 150] : List ℚ).minimum = some m ∧ |M - m - 170| ≤ (1e-9 : ℚ)) :=
  ⟨⟨by norm_num, by norm_num, by simp, rotate_eval_10_200_350⟩,
    rotate_into_window_range_and_span [10, 200, 350] 290 1e-9 (by norm_num) (by norm_num)
      (by simp) [170, 0, 150] (-200) 170 rotate_eval_10_200_350⟩

/-- C10 (implicit): whenever `_rotate_into_window` succeeds on a nonempty
input of angles already reduced into `[0, 360)` (with a nonnegative window),
the minimum of the returned rotated angles is exactly `0`, and the returned
rotation constant lies in `(-360, 0]`. -/
theorem rotate_into_window_min_exact_zero (angles : List ℚ) (W atol : ℚ)
    (hW : 0 ≤ W) (hne : angles ≠ [])
    (hrange : ∀ x ∈ angles, 0 ≤ x ∧ x < 360)
    (r : List ℚ) (c s : ℚ)
    (hok : rotate_into_window angles W atol = .ok (r, c, s)) :
    r.minimum = some 0 ∧ -360 < c ∧ c ≤ 0 := by
  obtain ⟨_, _, hmin, _, _, hc1, hc2⟩ :=
    rotated_facts angles W atol hne hW r c s hok
  exact ⟨hmin, hc1, hc2⟩

/-- C10 witness: the run on `[10, 200, 350]` (all in `[0, 360)`) with window
290 succeeds with rotated minimum exactly `0` and rotation `-200 ∈ (-360, 0]`. -/
theorem rotate_into_window_min_exact_zero_witness :
    ((0 : ℚ) ≤ 290 ∧ ([(10 : ℚ), 200, 350] : List ℚ) ≠ [] ∧
      (∀ x ∈ ([(10 : ℚ), 200, 350] : List ℚ), 0 ≤ x ∧ x < 360) ∧
      rotate_into_window [(10 : ℚ), 200, 350] 290 1e-9 =
        .ok ([170, 0, 150], -200, 170)) ∧
    (([(170 : ℚ), 0, 150] : List ℚ).minimum = some 0 ∧
      (-360 : ℚ) < -200 ∧ (-200 : ℚ) ≤ 0) :=
  ⟨⟨by norm_num, by simp, by decide, rotate_eval_10_200_350⟩,
    rotate_into_window_min_exact_zero [10, 200, 350] 290 1e-9 (by norm_num) (by simp)
      (by decide) [170, 0, 150] (-200) 170 rotate_eval_10_200_350⟩

/-! ### Claim C4: the steering formula -/

/-- C4: for every elevation `theta`, azimuth `phi` (degrees) and spacings
`dx, dy`, the raw phase produced by `steering_phases` at grid offset
`(m, n) = (i - 1, j - 1) ∈ {-1,0,1}²` (stored at base index `3i + j`) equals
`m·dφx + n·dφy` converted to degrees and reduced into `[0, 360)`, where
`dφx = -k·dx·sin(theta)·cos(phi)`, `dφy = -k·dy·sin(theta)·sin(phi)`,
`k = 2π/λ` and `λ = c / 5 GHz`. -/
theorem basePhases_eq_spec (θ_deg φ_deg dx dy : ℝ) (i j : Fin 3) :
    (basePhases θ_deg φ_deg dx dy).getD (3 * i.1 + j.1) 0 =
      specRawPhase ((i.1 : ℤ) - 1) ((j.1 : ℤ) - 1) θ_deg φ_deg dx dy ∧
    0 ≤ specRawPhase ((i.1 : ℤ) - 1) ((j.1 : ℤ) - 1) θ_deg φ_deg dx dy ∧
    specRawPhase ((i.1 : ℤ) - 1) ((j.1 : ℤ) - 1) θ_deg φ_deg dx dy < 360 := by
  refine ⟨?_, ?_, ?_⟩
  · fin_cases i <;> fin_cases j <;>
      simp [basePhases, gridOffsets, specRawPhase, dphi_x, dphi_y, kwave,
        wavelength] <;>
      norm_num
  · simp only [specRawPhase]
    exact npMod_nonneg _ (by norm_num)
  · simp only [specRawPhase]
    exact npMod_lt _ (by norm_num)

/-! ### Evaluation of the pipeline at `theta = 0` (broadside) -/

theorem rotate_all_zero {α : Type*} [LinearOrderedField α] [FloorRing α]
    (W atol : α) (hW : 0 ≤ W) (hWa : 0 ≤ W + atol) :
    rotate_into_window [(0 : α), 0, 0, 0, 0, 0, 0, 0, 0] W atol =
      .ok ([0, 0, 0, 0, 0, 0, 0, 0, 0], 0, 0) := by
  have hsort : sortedAngles [(0 : α), 0, 0, 0, 0, 0, 0, 0, 0] =
      [0, 0, 0, 0, 0, 0, 0, 0, 0] := by
    simp [sortedAngles, npMod_zero_left, List.insertionSort, List.orderedInsert]
  have hgaps : circularGaps [(0 : α), 0, 0, 0, 0, 0, 0, 0, 0] =
      [0, 0, 0, 0, 0, 0, 0, 0, 360] := by
    simp [circularGaps, hsort, npDiff]
  have hargmax : npArgmax [(0 : α), 0, 0, 0, 0, 0, 0, 0, 360] = 8 := by
    norm_num [npArgmax]
  have hspan : spanOf [(0 : α), 0, 0, 0, 0, 0, 0, 0, 0] = 0 := by
    simp [spanOf, hgaps, hargmax]
  have hstart : startOf [(0 : α), 0, 0, 0, 0, 0, 0, 0, 0] = 0 := by
    simp [startOf, hsort, hgaps, hargmax]
  rw [rotate_ok_intro _ _ _ (by rw [hspan]; exact hWa), hspan, hstart]
  simp [npMod_zero_left, npClip, min_eq_right hW]

theorem basePhases_theta_zero (φ_deg dx dy : ℝ) :
    basePhases 0 φ_deg dx dy = [0, 0, 0, 0, 0, 0, 0, 0, 0] := by
  have hs : Real.sin (deg2rad 0) = 0 := by simp [deg2rad]
  simp [basePhases, gridOffsets, dphi_x, dphi_y, hs, rad2deg, npMod_zero_left]

/-- With `theta = 0` (broadside) every raw phase is `0`, the rotation is
trivially feasible, and `steering_phases` returns the zero phase matrix with
rotation `0` and span `0`. -/
theorem steering_phases_theta_zero (φ_deg dx dy W : ℝ) (hW : 0 ≤ W)
    (hWa : 0 ≤ W + 1e-9) :
    steering_phases 0 φ_deg dx dy W =
      .ok (Matrix.of (fun _ _ => (0 : ℝ)), 0, 0) := by
  have hz : ∀ n : ℕ, ([(0 : ℝ), 0, 0, 0, 0, 0, 0, 0, 0]).getD n 0 = 0 := by
    intro n
    rcases n with _ | _ | _ | _ | _ | _ | _ | _ | _ | n <;> rfl
  have hM : Matrix.of (fun j i : Fin 3 =>
        ([(0 : ℝ), 0, 0, 0, 0, 0, 0, 0, 0]).getD (3 * i.1 + j.1) 0) =
      Matrix.of (fun _ _ => (0 : ℝ)) := by
    ext j i
    exact hz _
  simp only [steering_phases]
  rw [basePhases_theta_zero, rotate_all_zero W 1e-9 hW hWa]
  dsimp only
  rw [hM]

theorem flattenRowMajor_const {α : Type*} [LinearOrderedField α] [FloorRing α]
    (a : α) :
    flattenRowMajor (Matrix.of (fun _ _ => a)) = List.replicate 9 a := rfl

/-- With `theta = 0` the whole pipeline returns nine copies of the rounded
voltage for phase `0`, whatever the calibration coefficients are. -/
theorem ris_theta_zero (coeffs : List ℝ) (φ_deg : ℝ) :
    ris_voltage_vector coeffs 0 φ_deg 290 =
      .ok (List.replicate 9 (npRound2 (volt_map 0 coeffs)),
        Matrix.of (fun _ _ => 0),
        Matrix.of (fun _ _ => volt_map 0 coeffs), 0, 0) := by
  simp only [ris_voltage_vector]
  rw [steering_phases_theta_zero φ_deg 0.03 0.03 290 (by norm_num) (by norm_num)]
  dsimp only
  have h1 : voltage_stage coeffs (Matrix.of (fun _ _ => (0 : ℝ))) =
      (List.replicate 9 (npRound2 (volt_map 0 coeffs)),
        Matrix.of (fun _ _ => volt_map 0 coeffs)) := by
    rw [voltage_stage]
    have hv : Matrix.of (fun j i : Fin 3 =>
          volt_map ((Matrix.of (fun _ _ => (0 : ℝ))) j i) coeffs) =
        Matrix.of (fun _ _ => volt_map 0 coeffs) := rfl
    rw [hv]
    have hr : Matrix.of (fun j i : Fin 3 =>
          npRound2 ((Matrix.of (fun _ _ => volt_map 0 coeffs)) j i)) =
        Matrix.of (fun _ _ => npRound2 (volt_map (0 : ℝ) coeffs)) := rfl
    rw [hr, flattenRowMajor_const, List.reverse_replicate]
  rw [h1]

theorem roundHalfEven_intCast {α : Type*} [LinearOrderedField α] [FloorRing α]
    (n : ℤ) : roundHalfEven ((n : ℤ) : α) = n := by
  rw [roundHalfEven, Int.floor_intCast, if_neg (by norm_num)]
  exact round_intCast n

theorem npRound2_intCast {α : Type*} [LinearOrderedField α] [FloorRing α]
    (n : ℤ) : npRound2 ((n : ℤ) : α) = ((n : ℤ) : α) := by
  rw [npRound2, show ((n : ℤ) : α) * 100 = (((n * 100 : ℤ) : ℤ) : α) by push_cast; ring,
    roundHalfEven_intCast]
  push_cast
  rw [mul_div_assoc]
  norm_num

theorem volt_map_identity {α : Type*} [LinearOrderedField α] [FloorRing α]
    (p : α) : volt_map p [1, 0] = p := by
  norm_num [volt_map, List.range_succ]

theorem volt_map_const {α : Type*} [LinearOrderedField α] [FloorRing α]
    (p c0 : α) : volt_map p [c0] = c0 := by
  norm_num [volt_map, List.range_succ]

theorem npRound2_zero {α : Type*} [LinearOrderedField α] [FloorRing α] :
    npRound2 (0 : α) = 0 := by
  norm_num [npRound2, roundHalfEven]

theorem npRound2_millivolt : npRound2 ((1 : ℝ) / 1000) = 0 := by
  rw [npRound2]
  have h1 : (1 : ℝ) / 1000 * 100 = 1 / 10 := by norm_num
  rw [h1, roundHalfEven, if_neg (by norm_num), round_eq]
  norm_num

theorem flattenRowMajor_eq {α : Type*} [LinearOrderedField α] [FloorRing α]
    (M : Matrix (Fin 3) (Fin 3) α) :
    flattenRowMajor M =
      [M 0 0, M 0 1, M 0 2, M 1 0, M 1 1, M 1 2, M 2 0, M 2 1, M 2 2] := by
  simp [flattenRowMajor, List.finRange]

/-- Concrete run of the pipeline with the identity calibration polynomial
`[1, 0]` at `theta = 0, phi = 50`: all phases are zero, so all voltages are
zero. -/
theorem ris_eval_identity :
    ris_voltage_vector [(1 : ℝ), 0] 0 50 290 =
      .ok (List.replicate 9 0, Matrix.of (fun _ _ => 0),
        Matrix.of (fun _ _ => 0), 0, 0) := by
  have h := ris_theta_zero [(1 : ℝ), 0] 50
  simp only [volt_map_identity, npRound2_zero] at h
  exact h

/-- Concrete run of the pipeline with the constant calibration polynomial
`[0.001]` at `theta = 0, phi = 50`: the exposed voltage matrix holds
`0.001` while the wire vector holds the rounded `0.0`. -/
theorem ris_eval_millivolt :
    ris_voltage_vector [(1 : ℝ) / 1000] 0 50 290 =
      .ok (List.replicate 9 0, Matrix.of (fun _ _ => 0),
        Matrix.of (fun _ _ => 1 / 1000), 0, 0) := by
  have h := ris_theta_zero [(1 : ℝ) / 1000] 50
  simp only [volt_map_const, npRound2_millivolt] at h
  exact h

/-! ### Claim C5: the end-to-end reference-vector scenario -/

/-- C5 counterexample: at the claimed scenario `theta = 0, phi = 50` the
pipeline returns nine equal voltages (here, with the identity calibration
polynomial `[1, 0]` named by the spec, nine zeros), and no constant vector
equals the non-constant reference vector `[7.8, 5.0, 0.0, ...]`. -/
theorem ris_voltage_vector_reference_counterexample :
    ris_voltage_vector [(1 : ℝ), 0] 0 50 290 =
      .ok (List.replicate 9 0, Matrix.of (fun _ _ => 0),
        Matrix.of (fun _ _ => 0), 0, 0) ∧
    List.replicate 9 (0 : ℝ) ≠ refVector := by
  refine ⟨ris_eval_identity, ?_⟩
  intro h
  have h0 := congrArg (fun l : List ℝ => l.getD 0 0) h
  simp [refVector] at h0
  norm_num at h0

/-- C5 amended: at `theta = 0` the steering produces the all-zero phase
matrix, so for every choice of calibration coefficients the pipeline at
`theta = 0, phi = 50` returns nine copies of the rounded voltage for phase
`0` — a constant vector, which never equals the non-constant reference
vector `[7.8, 5.0, 0.0, 7.8, 5.0, 0.0, 7.8, 5.0, 0.0]`. -/
theorem ris_voltage_vector_theta_zero_constant (coeffs : List ℝ) :
    ris_voltage_vector coeffs 0 50 290 =
      .ok (List.replicate 9 (npRound2 (volt_map 0 coeffs)),
        Matrix.of (fun _ _ => 0),
        Matrix.of (fun _ _ => volt_map 0 coeffs), 0, 0) ∧
    List.replicate 9 (npRound2 (volt_map 0 coeffs)) ≠ refVector := by
  refine ⟨ris_theta_zero coeffs 50, ?_⟩
  intro h
  have h0 : npRound2 (volt_map (0 : ℝ) coeffs) = 7.8 := by
    have h2 := congrArg (fun l : List ℝ => l.getD 0 0) h
    simpa [refVector] using h2
  have h1 : npRound2 (volt_map (0 : ℝ) coeffs) = 5 := by
    have h2 := congrArg (fun l : List ℝ => l.getD 1 0) h
    simpa [refVector] using h2
  rw [h0] at h1
  norm_num at h1

/-- On success, the components of the `ris_voltage_vector` result are, by
construction: the voltage matrix is the element-wise `volt_map` image of the
phase matrix, and the vector is the reversed row-major flattening of the
rounded voltage matrix. -/
theorem ris_ok_components (coeffs : List ℝ) (θ φ W : ℝ)
    (vec : List ℝ) (ph vol : Matrix (Fin 3) (Fin 3) ℝ) (c s : ℝ)
    (hok : ris_voltage_vector coeffs θ φ W = .ok (vec, ph, vol, c, s)) :
    vol = Matrix.of (fun j i => volt_map (ph j i) coeffs) ∧
    vec = (flattenRowMajor (Matrix.of (fun j i => npRound2 (vol j i)))).reverse := by
  simp only [ris_voltage_vector] at hok
  cases hster : steering_phases θ φ 0.03 0.03 W with
  | error e =>
      rw [hster] at hok
      simp at hok
  | ok t =>
      obtain ⟨phases, c', s'⟩ := t
      rw [hster] at hok
      dsimp only at hok
      rw [Except.ok.injEq, Prod.mk.injEq, Prod.mk.injEq, Prod.mk.injEq,
        Prod.mk.injEq] at hok
      obtain ⟨hvec, hph, hvol, _, _⟩ := hok
      subst hvec
      subst hph
      subst hvol
      exact ⟨rfl, rfl⟩

/-- C5 amended witness: the constant-output statement instantiated at the
identity calibration polynomial. -/
theorem ris_voltage_vector_theta_zero_constant_witness :
    (ris_voltage_vector [(1 : ℝ), 0] 0 50 290 =
      .ok (List.replicate 9 (npRound2 (volt_map 0 [(1 : ℝ), 0])),
        Matrix.of (fun _ _ => 0),
        Matrix.of (fun _ _ => volt_map 0 [(1 : ℝ), 0]), 0, 0)) ∧
    List.replicate 9 (npRound2 (volt_map 0 [(1 : ℝ), 0])) ≠ refVector :=
  ris_voltage_vector_theta_zero_constant [1, 0]

/-! ### Claim C6: is the exposed voltage matrix rounded? -/

/-- C6 counterexample: with the constant calibration polynomial `[0.001]`
the matrix exposed by `ris_voltage_vector` holds the raw entry `0.001`,
which differs from its 2-decimal rounding `0.0`; only the flattened wire
vector is rounded. -/
theorem ris_voltage_matrix_entry_not_rounded :
    (ris_voltage_vector [(1 : ℝ) / 1000] 0 50 290).toOption.map
        (fun r => r.2.2.1 0 0) = some (1 / 1000) ∧
    (ris_voltage_vector [(1 : ℝ) / 1000] 0 50 290).toOption.map
        (fun r => r.1) = some (List.replicate 9 0) ∧
    npRound2 ((1 : ℝ) / 1000) ≠ (1 : ℝ) / 1000 := by
  rw [ris_eval_millivolt]
  refine ⟨rfl, rfl, ?_⟩
  rw [npRound2_millivolt]
  norm_num

/-- C6 amended: the 3×3 voltage matrix exposed by `ris_voltage_vector` is
the element-wise image of the phase matrix under the calibration polynomial
WITHOUT rounding; rounding to 2 decimal places is applied only to the
flattened voltage vector handed to the caller. -/
theorem ris_voltage_matrix_unrounded_image (coeffs : List ℝ) (θ φ W : ℝ)
    (vec : List ℝ) (ph vol : Matrix (Fin 3) (Fin 3) ℝ) (c s : ℝ)
    (hok : ris_voltage_vector coeffs θ φ W = .ok (vec, ph, vol, c, s)) :
    vol = Matrix.of (fun j i => volt_map (ph j i) coeffs) ∧
    vec = (flattenRowMajor (Matrix.of (fun j i => npRound2 (vol j i)))).reverse :=
  ris_ok_components coeffs θ φ W vec ph vol c s hok

/-- C6 amended witness: the identity-polynomial run at `theta = 0, phi = 50`
instantiates the unrounded-image statement. -/
theorem ris_voltage_matrix_unrounded_image_witness :
    (ris_voltage_vector [(1 : ℝ), 0] 0 50 290 =
      .ok (List.replicate 9 0, Matrix.of (fun _ _ => 0),
        Matrix.of (fun _ _ => 0), 0, 0)) ∧
    ((Matrix.of (fun _ _ => (0 : ℝ)) : Matrix (Fin 3) (Fin 3) ℝ) =
      Matrix.of (fun j i =>
        volt_map ((Matrix.of (fun _ _ => (0 : ℝ)) : Matrix (Fin 3) (Fin 3) ℝ) j i)
          [1, 0]) ∧
    List.replicate 9 (0 : ℝ) =
      (flattenRowMajor (Matrix.of (fun j i =>
        npRound2 ((Matrix.of (fun _ _ => (0 : ℝ)) : Matrix (Fin 3) (Fin 3) ℝ) j i)))).reverse) :=
  ⟨ris_eval_identity,
    ris_voltage_matrix_unrounded_image [1, 0] 0 50 290
      (List.replicate 9 0) (Matrix.of (fun _ _ => 0)) (Matrix.of (fun _ _ => 0))
      0 0 ris_eval_identity⟩

/-! ### Claim C7: the wire vector is the reversed row-major flattening -/

/-- C7: the voltage vector returned by `ris_voltage_vector` is the row-major
flattening of the rounded 3×3 voltage matrix, reversed, with length 9; the
voltage-mapping stage does the same for every phase matrix; under the
identity calibration polynomial `[1, 0]` (voltage = phase) a phase matrix
with distinct 2-decimal-exact values per cell reproduces the exact reversed
row-major flattening in the output vector. -/
theorem voltage_vector_reversed_flatten :
    (∀ (coeffs : List ℝ) (θ φ W : ℝ) (vec : List ℝ)
        (ph vol : Matrix (Fin 3) (Fin 3) ℝ) (c s : ℝ),
      ris_voltage_vector coeffs θ φ W = .ok (vec, ph, vol, c, s) →
      vec = (flattenRowMajor (Matrix.of (fun j i => npRound2 (vol j i)))).reverse ∧
      vec.length = 9) ∧
    (∀ (coeffs : List ℚ) (phases : Matrix (Fin 3) (Fin 3) ℚ),
      (voltage_stage coeffs phases).1 =
        (flattenRowMajor (Matrix.of (fun j i =>
          npRound2 (volt_map (phases j i) coeffs)))).reverse) ∧
    (∀ p : ℚ, volt_map p [1, 0] = p) ∧
    (voltage_stage ([1, 0] : List ℚ) distinctPhases).1 =
      [90, 80, 70, 60, 50, 40, 30, 20, 10] := by
  refine ⟨?_, ?_, fun p => volt_map_identity p, ?_⟩
  · intro coeffs θ φ W vec ph vol c s hok
    obtain ⟨_, hvec⟩ := ris_ok_components coeffs θ φ W vec ph vol c s hok
    refine ⟨hvec, ?_⟩
    rw [hvec, List.length_reverse, flattenRowMajor_eq]
    rfl
  · intro coeffs phases
    rfl
  · have hstage : (voltage_stage ([1, 0] : List ℚ) distinctPhases).1 =
        (flattenRowMajor (Matrix.of (fun j i =>
          npRound2 (volt_map (distinctPhases j i) ([1, 0] : List ℚ))))).reverse := rfl
    have f0 : ((0 : Fin 3).1 : ℚ) = 0 := rfl
    have f1 : ((1 : Fin 3).1 : ℚ) = 1 := rfl
    have f2 : ((2 : Fin 3).1 : ℚ) = 2 := rfl
    have e10 : npRound2 (10 : ℚ) = 10 := by exact_mod_cast npRound2_intCast 10
    have e20 : npRound2 (20 : ℚ) = 20 := by exact_mod_cast npRound2_intCast 20
    have e30 : npRound2 (30 : ℚ) = 30 := by exact_mod_cast npRound2_intCast 30
    have e40 : npRound2 (40 : ℚ) = 40 := by exact_mod_cast npRound2_intCast 40
    have e50 : npRound2 (50 : ℚ) = 50 := by exact_mod_cast npRound2_intCast 50
    have e60 : npRound2 (60 : ℚ) = 60 := by exact_mod_cast npRound2_intCast 60
    have e70 : npRound2 (70 : ℚ) = 70 := by exact_mod_cast npRound2_intCast 70
    have e80 : npRound2 (80 : ℚ) = 80 := by exact_mod_cast npRound2_intCast 80
    have e90 : npRound2 (90 : ℚ) = 90 := by exact_mod_cast npRound2_intCast 90
    rw [hstage, flattenRowMajor_eq]
    norm_num [Matrix.of_apply, distinctPhases, volt_map_identity, f0, f1, f2,
      e10, e20, e30, e40, e50, e60, e70, e80, e90]

/-- C7 witness: the reversed-flattening statement instantiated at the
identity-polynomial broadside run. -/
theorem voltage_vector_reversed_flatten_witness :
    List.replicate 9 (0 : ℝ) =
      (flattenRowMajor (Matrix.of (fun j i =>
        npRound2 ((Matrix.of (fun _ _ => (0 : ℝ)) : Matrix (Fin 3) (Fin 3) ℝ) j i)))).reverse ∧
    (List.replicate 9 (0 : ℝ)).length = 9 :=
  voltage_vector_reversed_flatten.1 [1, 0] 0 50 290
    (List.replicate 9 0) (Matrix.of (fun _ _ => 0)) (Matrix.of (fun _ _ => 0))
    0 0 ris_eval_identity

/-! ### Claim C9: the catalog sort -/

theorem entryLt_of_pair_ne (e1 e2 : CatalogEntry)
    (h : ¬(e1.el = e2.el ∧ e1.az = e2.az)) :
    entryLt e1 e2 = .ok (pairLtB e1 e2) := by
  by_cases hel : e1.el = e2.el
  · have haz : ¬ e1.az = e2.az := fun haz => h ⟨hel, haz⟩
    have hnlt : ¬ e1.el < e2.el := by rw [hel]; exact lt_irrefl _
    rw [entryLt, if_pos hel, if_neg haz, pairLtB]
    congr 1
    exact (decide_eq_decide.2 (by tauto)).symm
  · rw [entryLt, if_neg hel, pairLtB]
    congr 1
    exact (decide_eq_decide.2 (by tauto)).symm

theorem mem_insertB (x y : CatalogEntry) (acc : List CatalogEntry) :
    y ∈ insertB x acc ↔ y = x ∨ y ∈ acc := by
  induction acc with
  | nil => simp [insertB]
  | cons z zs ih =>
      rw [insertB]
      by_cases hb : pairLtB x z = true
      · rw [if_pos hb]
        simp [List.mem_cons]
      · rw [if_neg hb]
        simp only [List.mem_cons, ih]
        tauto

theorem insertE_ok (x : CatalogEntry) (acc : List CatalogEntry)
    (h : ∀ y ∈ acc, ¬(x.el = y.el ∧ x.az = y.az)) :
    insertE x acc = .ok (insertB x acc) := by
  induction acc with
  | nil => rfl
  | cons y ys ih =>
      have hy := h y (List.mem_cons_self y ys)
      have ih2 := ih (fun z hz => h z (List.mem_cons_of_mem y hz))
      simp only [insertE, insertB, entryLt_of_pair_ne x y hy, ih2]
      cases hb : pairLtB x y <;>
        simp [hb, Bind.bind, Except.bind, Pure.pure, Except.pure]

theorem sortE_go (l : List CatalogEntry) :
    ∀ acc : List CatalogEntry,
    List.Pairwise (fun a b => ¬(a.el = b.el ∧ a.az = b.az)) l →
    (∀ x ∈ l, ∀ y ∈ acc, ¬(x.el = y.el ∧ x.az = y.az)) →
    l.foldlM (fun acc x => insertE x acc) acc =
      .ok (l.foldl (fun acc x => insertB x acc) acc) := by
  induction l with
  | nil =>
      intro acc _ _
      rfl
  | cons x xs ih =>
      intro acc hpw hacc
      have hhead := (List.pairwise_cons.1 hpw).1
      have hpw2 := (List.pairwise_cons.1 hpw).2
      have hacc2 : ∀ z ∈ xs, ∀ y ∈ insertB x acc, ¬(z.el = y.el ∧ z.az = y.az) := by
        intro z hz y hyy
        rcases (mem_insertB x y acc).1 hyy with rfl | hy2
        · intro hcon
          exact hhead z hz ⟨hcon.1.symm, hcon.2.symm⟩
        · exact hacc z (List.mem_cons_of_mem x hz) y hy2
      rw [List.foldlM_cons, List.foldl_cons,
        insertE_ok x acc (hacc x (List.mem_cons_self x xs))]
      have hrec := ih (insertB x acc) hpw2 hacc2
      simpa [Bind.bind, Except.bind] using hrec

theorem pairLtB_true_le {x y : CatalogEntry} (h : pairLtB x y = true) :
    pairLe x y := by
  have h2 := of_decide_eq_true h
  rcases h2 with h1 | ⟨h1, h3⟩
  · exact Or.inl h1
  · exact Or.inr ⟨h1, le_of_lt h3⟩

theorem pairLtB_false_le {x y : CatalogEntry} (h : pairLtB x y = false) :
    pairLe y x := by
  have h2 := of_decide_eq_false h
  push_neg at h2
  rcases lt_trichotomy y.el x.el with h3 | h3 | h3
  · exact Or.inl h3
  · exact Or.inr ⟨h3, h2.2 h3.symm⟩
  · exact absurd h3 (not_lt.2 h2.1)

theorem pairLe_trans {a b c : CatalogEntry} (h1 : pairLe a b) (h2 : pairLe b c) :
    pairLe a c := by
  rcases h1 with h1 | ⟨e1, l1⟩ <;> rcases h2 with h2 | ⟨e2, l2⟩
  · exact Or.inl (lt_trans h1 h2)
  · exact Or.inl (e2 ▸ h1)
  · exact Or.inl (e1 ▸ h2)
  · exact Or.inr ⟨e1.trans e2, le_trans l1 l2⟩

theorem insertB_sorted (x : CatalogEntry) (acc : List CatalogEntry)
    (h : List.Sorted pairLe acc) : List.Sorted pairLe (insertB x acc) := by
  induction acc with
  | nil => simp [insertB]
  | cons y ys ih =>
      rw [List.sorted_cons] at h
      rw [insertB]
      by_cases hb : pairLtB x y = true
      · rw [if_pos hb, List.sorted_cons]
        refine ⟨?_, List.sorted_cons.2 h⟩
        intro b hb2
        rcases List.mem_cons.1 hb2 with rfl | hb3
        · exact pairLtB_true_le hb
        · exact pairLe_trans (pairLtB_true_le hb) (h.1 b hb3)
      · rw [if_neg hb, List.sorted_cons]
        refine ⟨?_, ih h.2⟩
        intro b hb2
        rcases (mem_insertB x b ys).1 hb2 with rfl | hb3
        · exact pairLtB_false_le (Bool.not_eq_true _ ▸ hb)
        · exact h.1 b hb3

theorem foldl_insertB_sorted (l : List CatalogEntry) :
    ∀ acc, List.Sorted pairLe acc →
    List.Sorted pairLe (l.foldl (fun acc x => insertB x acc) acc) := by
  induction l with
  | nil =>
      intro acc h
      exact h
  | cons x xs ih =>
      intro acc h
      rw [List.foldl_cons]
      exact ih _ (insertB_sorted x acc h)

theorem sortB_sorted (l : List CatalogEntry) : List.Sorted pairLe (sortB l) :=
  foldl_insertB_sorted l [] (by simp)

theorem insertB_perm (x : CatalogEntry) (acc : List CatalogEntry) :
    List.Perm (insertB x acc) (x :: acc) := by
  induction acc with
  | nil => simp [insertB]
  | cons y ys ih =>
      rw [insertB]
      by_cases hb : pairLtB x y = true
      · rw [if_pos hb]
      · rw [if_neg hb]
        exact (ih.cons y).trans (List.Perm.swap x y ys)

theorem foldl_insertB_perm (l : List CatalogEntry) :
    ∀ acc, List.Perm (l.foldl (fun acc x => insertB x acc) acc) (acc ++ l) := by
  induction l with
  | nil =>
      intro acc
      simp
  | cons x xs ih =>
      intro acc
      rw [List.foldl_cons]
      refine (ih (insertB x acc)).trans ?_
      have h1 : List.Perm (insertB x acc ++ xs) ((x :: acc) ++ xs) :=
        (insertB_perm x acc).append_right xs
      exact h1.trans List.perm_middle.symm

theorem sortB_perm (l : List CatalogEntry) : List.Perm (sortB l) l := by
  simpa [sortB] using foldl_insertB_perm l []

/-- C9 amended: `load_data_from_directory` returns the catalog sorted
ascending by `(elevation, azimuth)` whenever the qualifying records carry
pairwise-distinct `(elevation, azimuth)` pairs (the sorted output is a
permutation of the qualifying records); two records sharing the same pair
make the tuple sort fall through to the numpy settings arrays, whose truth
value is ambiguous, so the call raises instead of returning both entries. -/
theorem load_data_sorted_of_distinct (files : List NpzFile)
    (h : List.Pairwise (fun a b => ¬(a.el = b.el ∧ a.az = b.az))
      (catalogEntriesOf files)) :
    load_data_from_directory files = .ok
      ((sortB (catalogEntriesOf files)).map (fun e => e.label),
       (sortB (catalogEntriesOf files)).map
         (fun e => (e.label, e.vector, e.az, e.el))) ∧
    List.Sorted pairLe (sortB (catalogEntriesOf files)) ∧
    List.Perm (sortB (catalogEntriesOf files)) (catalogEntriesOf files) := by
  refine ⟨?_, sortB_sorted _, sortB_perm _⟩
  have hs : sortE (catalogEntriesOf files) = .ok (sortB (catalogEntriesOf files)) := by
    have h2 := sortE_go (catalogEntriesOf files) [] h
      (by intro x _ y hy; simp at hy)
    simpa [sortE, sortB] using h2
  simp [load_data_from_directory, hs, Bind.bind, Except.bind, Pure.pure,
    Except.pure]

/-- C9 amended witness: three qualifying snapshots with elevations
`45, -45, 0` (the spec's own example) and a common azimuth load
successfully with the catalog sorted ascending by elevation. -/
theorem load_data_sorted_of_distinct_witness :
    load_data_from_directory
      [⟨some [1, 2, 3, 4, 5, 6, 7, 8, 9], some 10, some 45⟩,
       ⟨some [1, 2, 3, 4, 5, 6, 7, 8, 9], some 10, some (-45)⟩,
       ⟨some [1, 2, 3, 4, 5, 6, 7, 8, 9], some 10, some 0⟩] = .ok
      ((sortB (catalogEntriesOf
        [⟨some [1, 2, 3, 4, 5, 6, 7, 8, 9], some 10, some 45⟩,
         ⟨some [1, 2, 3, 4, 5, 6, 7, 8, 9], some 10, some (-45)⟩,
         ⟨some [1, 2, 3, 4, 5, 6, 7, 8, 9], some 10, some 0⟩])).map (fun e => e.label),
       (sortB (catalogEntriesOf
        [⟨some [1, 2, 3, 4, 5, 6, 7, 8, 9], some 10, some 45⟩,
         ⟨some [1, 2, 3, 4, 5, 6, 7, 8, 9], some 10, some (-45)⟩,
         ⟨some [1, 2, 3, 4, 5, 6, 7, 8, 9], some 10, some 0⟩])).map
         (fun e => (e.label, e.vector, e.az, e.el))) ∧
    List.Sorted pairLe (sortB (catalogEntriesOf
      [⟨some [1, 2, 3, 4, 5, 6, 7, 8, 9], some 10, some 45⟩,
       ⟨some [1, 2, 3, 4, 5, 6, 7, 8, 9], some 10, some (-45)⟩,
       ⟨some [1, 2, 3, 4, 5, 6, 7, 8, 9], some 10, some 0⟩])) ∧
    List.Perm (sortB (catalogEntriesOf
      [⟨some [1, 2, 3, 4, 5, 6, 7, 8, 9], some 10, some 45⟩,
       ⟨some [1, 2, 3, 4, 5, 6, 7, 8, 9], some 10, some (-45)⟩,
       ⟨some [1, 2, 3, 4, 5, 6, 7, 8, 9], some 10, some 0⟩]))
      (catalogEntriesOf
      [⟨some [1, 2, 3, 4, 5, 6, 7, 8, 9], some 10, some 45⟩,
       ⟨some [1, 2, 3, 4, 5, 6, 7, 8, 9], some 10, some (-45)⟩,
       ⟨some [1, 2, 3, 4, 5, 6, 7, 8, 9], some 10, some 0⟩]) :=
  load_data_sorted_of_distinct
    [⟨some [1, 2, 3, 4, 5, 6, 7, 8, 9], some 10, some 45⟩,
     ⟨some [1, 2, 3, 4, 5, 6, 7, 8, 9], some 10, some (-45)⟩,
     ⟨some [1, 2, 3, 4, 5, 6, 7, 8, 9], some 10, some 0⟩] (by decide)

/-- C9 counterexample: two qualifying snapshots sharing the same
`(elevation, azimuth)` pair — here `(20, 10)` with different 9-element
settings — make `load_data_from_directory` raise the ambiguous-truth-value
error instead of returning both entries in the catalog. -/
theorem load_data_duplicate_pair_raises :
    load_data_from_directory
      [⟨some [1, 2, 3, 4, 5, 6, 7, 8, 9], some 10, some 20⟩,
       ⟨some [9, 8, 7, 6, 5, 4, 3, 2, 1], some 10, some 20⟩] =
      .error SortError.ambiguous := by
  rfl

end RIS
